import Mathlib

/-!
# Verification of the probability-driven lottery predictor (`src/app.py`)

Shallow embedding of the prediction core of `app.py`:

* `parse_key`                     (app.py lines 14-27)
* `build_stats`                   (app.py lines 99-130)
* `normalize_probs`               (app.py lines 132-136)
* `sample_without_replacement`    (app.py lines 138-152)
* `probability_based_prediction`  (app.py lines 154-187)

Conventions of the embedding:

* Python `int` values are `ℤ`; Python `float` weights are modelled with
  exact rationals `ℚ` (all arithmetic performed by the engine is additive
  smoothing and ratios, exact in `ℚ`).
* The process-global random generator is modelled by an outcome oracle
  `g : ℕ → ℕ` together with an explicit step counter: each call into the
  `random` module consumes one oracle value.  `random.randrange`,
  `random.choice` and `random.choices` all return (an element at) a valid
  index of the population handed to them, so an outcome is abstracted as
  `g t % population.length`; the oracle ranges over every possible outcome
  of the randomness source.
* Python dictionaries with a fixed key set (the frequency tables keyed by
  `1..50` resp. `1..12`, the nested co-occurrence dict keyed by pairs from
  `1..50`) are modelled as total functions that are `0` away from the keys
  ever written, exactly as the dicts are initialised to `0` everywhere.
-/

namespace LottoApp

/-! ## Python string/int builtins used by `parse_key` -/

/-- Model of Python `str.strip()` on a character list (ASCII whitespace). -/
def trimChars (cs : List Char) : List Char :=
  ((cs.dropWhile Char.isWhitespace).reverse.dropWhile Char.isWhitespace).reverse

/-- Digit run accepted by Python `int`: after a first digit, further digits,
with single underscores allowed between two digits. Accumulates the value. -/
def pyDigitsAux : ℕ → List Char → Option ℕ
  | acc, [] => some acc
  | acc, c :: cs =>
    if c.isDigit then pyDigitsAux (10 * acc + (c.toNat - 48)) cs
    else if c = '_' then
      match cs with
      | [] => none
      | c2 :: cs2 =>
        if c2.isDigit then pyDigitsAux (10 * acc + (c2.toNat - 48)) cs2 else none
    else none

/-- Nonempty digit run (Python `int` body after the optional sign). -/
def pyDigits : List Char → Option ℕ
  | [] => none
  | c :: cs => if c.isDigit then pyDigitsAux (c.toNat - 48) cs else none

/-- Model of Python `int(token)` on a token: strip whitespace, optional
sign, then a digit run; `none` models the `ValueError`. -/
def pyInt (cs : List Char) : Option ℤ :=
  match trimChars cs with
  | '+' :: rest => (pyDigits rest).map fun n => (n : ℤ)
  | '-' :: rest => (pyDigits rest).map fun n => -(n : ℤ)
  | rest => (pyDigits rest).map fun n => (n : ℤ)

/-- Model of Python `key.split("/", 1)` combined with the `"/" in key`
test: `none` when the list holds no `'/'`, otherwise the parts around the
first `'/'`. -/
def splitFirstSlash : List Char → Option (List Char × List Char)
  | [] => none
  | c :: cs =>
    if c = '/' then some ([], cs)
    else
      match splitFirstSlash cs with
      | none => none
      | some lr => some (c :: lr.1, lr.2)

/-- Model of Python `s.split(";")` (on every separator, keeping empties). -/
def splitOnSemi : List Char → List (List Char)
  | [] => [[]]
  | c :: cs =>
    if c = ';' then [] :: splitOnSemi cs
    else
      match splitOnSemi cs with
      | [] => [[c]]
      | t :: ts => (c :: t) :: ts

/-- The nonempty tokens of one side of the key:
`[x for x in side.replace(" ", "").split(";") if x]`. -/
def group_tokens (cs : List Char) : List (List Char) :=
  (splitOnSemi (cs.filter fun c => c != ' ')).filter fun t => t != []

/-- One group of `parse_key`:
`[int(x) for x in side.replace(" ", "").split(";") if x]`;
`none` models the `ValueError` escaping the comprehension. -/
def group_ints (cs : List Char) : Option (List ℤ) :=
  (group_tokens cs).mapM pyInt

/-- `parse_key` (app.py lines 14-27) on the character list of the key. -/
def parse_key_chars (key : List Char) : List ℤ × List ℤ :=
  if key = [] then ([], [])
  else
    match splitFirstSlash (trimChars key) with
    | none => ([], [])
    | some lr =>
      match group_ints lr.1, group_ints lr.2 with
      | some nums, some stars => (nums, stars)
      | _, _ => ([], [])

/-- `parse_key` (app.py lines 14-27): `'n;n;n;n;n/s;s' -> (list5, list2)`,
`([], [])` if empty/invalid. -/
def parse_key (s : String) : List ℤ × List ℤ := parse_key_chars s.data

/-! ## Rows and aggregated statistics -/

/-- One CSV row as handed to the engine by `read_rows`: the three string
fields `Date`, `Actual`, `Prediction`. -/
structure Row where
  Date : String
  Actual : String
  Prediction : String

/-- Result of `build_stats`: the two frequency tables and the
co-occurrence matrix, as total functions (0 outside the written keys). -/
structure Stats where
  num : ℤ → ℕ
  star : ℤ → ℕ
  co : ℤ × ℤ → ℕ

/-- `freq[n] += w` on a frequency table. -/
def bump (f : ℤ → ℕ) (n : ℤ) (w : ℕ) : ℤ → ℕ :=
  fun m => if m = n then f m + w else f m

/-- `for n in xs: if lo <= n <= hi: freq[n] += w` (app.py lines 112-120). -/
def add_freqs (w : ℕ) (lo hi : ℤ) (xs : List ℤ) (f : ℤ → ℕ) : ℤ → ℕ :=
  xs.foldl (fun g n => if lo ≤ n ∧ n ≤ hi then bump g n w else g) f

/-- `co[x][y] += 1` on the co-occurrence matrix. -/
def bump_co (g : ℤ × ℤ → ℕ) (x y : ℤ) : ℤ × ℤ → ℕ :=
  fun p => if p = (x, y) then g p + 1 else g p

/-- Body of the pair loop (app.py lines 125-128):
`if x != y: co[x][y] += 1; co[y][x] += 1`. -/
def add_pair (g : ℤ × ℤ → ℕ) (x y : ℤ) : ℤ × ℤ → ℕ :=
  if x ≠ y then bump_co (bump_co g x y) y x else g

/-- The ordered index pairs `(xs[i], xs[j])` with `i < j`, in the order the
double loop of app.py lines 123-124 visits them. -/
def idx_pairs : List ℤ → List (ℤ × ℤ)
  | [] => []
  | x :: xs => (xs.map fun y => (x, y)) ++ idx_pairs xs

/-- The whole pair loop of app.py lines 123-128 over one record. -/
def add_cooc (xs : List ℤ) (g : ℤ × ℤ → ℕ) : ℤ × ℤ → ℕ :=
  (idx_pairs xs).foldl (fun h p => add_pair h p.1 p.2) g

/-- The range test `1 <= n <= hi` used by `build_stats`. -/
def in_range (lo hi : ℤ) (n : ℤ) : Bool := decide (lo ≤ n ∧ n ≤ hi)

/-- One iteration of the `for r in rows` loop of `build_stats`
(app.py lines 108-128). -/
def stats_step (st : Stats) (r : Row) : Stats :=
  let a_nums := (parse_key r.Actual).1
  let a_stars := (parse_key r.Actual).2
  let p_nums := (parse_key r.Prediction).1
  let p_stars := (parse_key r.Prediction).2
  { num := add_freqs 1 1 50 p_nums (add_freqs 2 1 50 a_nums st.num)
    star := add_freqs 1 1 12 p_stars (add_freqs 2 1 12 a_stars st.star)
    co := add_cooc (a_nums.filter (in_range 1 50)) st.co }

/-- The tables as initialised in app.py lines 104-106: `0` everywhere. -/
def init_stats : Stats := ⟨fun _ => 0, fun _ => 0, fun _ => 0⟩

/-- `build_stats` (app.py lines 99-130). -/
def build_stats (rows : List Row) : Stats := rows.foldl stats_step init_stats

/-! ## Probability model -/

/-- `normalize_probs` (app.py lines 132-136).  The counts dict always has
the key set `1..domain_size` (that is how both frequency tables are
built), so `sum(counts.values())` is the sum over those keys and
`counts.get(i, 0)` is plain application. -/
def normalize_probs (counts : ℤ → ℕ) (domain_size : ℕ) (alpha : ℚ) : List ℚ :=
  let total : ℚ :=
    ((List.range domain_size).map fun i : ℕ => (counts ((i : ℤ) + 1) : ℚ)).sum
      + alpha * domain_size
  if total ≤ 0 then List.replicate domain_size (1 / domain_size)
  else (List.range domain_size).map fun i : ℕ => ((counts ((i : ℤ) + 1) : ℚ) + alpha) / total

/-! ## Weighted sampler -/

/-- Loop body of `sample_without_replacement` (app.py lines 142-151),
recursing on the remaining iteration count of `for _ in range(k)`.  Both
branches of the source — `random.randrange(len(available))` when the
weight total is `≤ 0`, `random.choices(range(len(available)), ...)`
otherwise — return an index into `available`; one oracle value is
consumed per iteration and `g t % available.length` ranges over every
index either primitive can produce. -/
def sample_aux {α : Type} (g : ℕ → ℕ) : ℕ → ℕ → List α → List ℚ → List α
  | _, 0, _, _ => []
  | _, _ + 1, [], _ => []
  | t, k + 1, a :: as, current_weights =>
    have hidx : g t % (a :: as).length < (a :: as).length :=
      Nat.mod_lt _ (Nat.succ_pos _)
    (a :: as).get ⟨g t % (a :: as).length, hidx⟩ ::
      sample_aux g (t + 1) k ((a :: as).eraseIdx (g t % (a :: as).length))
        (current_weights.eraseIdx (g t % (a :: as).length))

/-- `sample_without_replacement` (app.py lines 138-152), with the oracle
`g` and the first oracle step `t` it consumes made explicit. -/
def sample_without_replacement {α : Type} (g : ℕ → ℕ) (t : ℕ)
    (domain : List α) (weights : List ℚ) (k : ℕ) : List α :=
  sample_aux g t k domain weights

/-! ## Prediction engine -/

/-- One random pick of an element of `l` (the common shape of
`random.choices(l, ...)[0]` and `random.choice(l)` in app.py lines
162, 174, 176): an element at a valid index for any oracle outcome.
Whenever `l` is nonempty the default is never used. -/
def pick (g : ℕ → ℕ) (t : ℕ) (l : List ℤ) : ℤ := l.getD (g t % l.length) 0

/-- The weight list built in app.py lines 168-172:
for each remaining candidate `c`,
`max(base_num_probs[c-1] + sum(co[c][p] for p in picked) * beta, 0.0)`.
(`c` stays in `1..50` in every call, so Python's `c-1` indexing is the
plain list index.) -/
def effective_weights (base : List ℚ) (co : ℤ × ℤ → ℕ) (beta : ℚ)
    (picked candidates : List ℤ) : List ℚ :=
  candidates.map fun c =>
    max (base.getD (c - 1).toNat 0 + (picked.map fun p => (co (c, p) : ℚ)).sum * beta) 0

/-- The `while len(picked) < 5 and candidates` loop (app.py lines
167-178), recursing on the remaining number of picks. -/
def pick_numbers (g : ℕ → ℕ) (base : List ℚ) (co : ℤ × ℤ → ℕ) (beta : ℚ) :
    ℕ → ℕ → List ℤ → List ℤ → List ℤ
  | _, 0, picked, _ => picked
  | t, fuel + 1, picked, candidates =>
    if candidates = [] then picked
    else
      let weights := effective_weights base co beta picked candidates
      let next_pick := pick g t candidates
      pick_numbers g base co beta (t + 1) fuel (picked ++ [next_pick])
        (candidates.erase next_pick)

/-- `probability_based_prediction` (app.py lines 154-187).  Oracle steps:
`0` for the first number, `1..4` for the loop picks, `5..6` for the two
stars. -/
def probability_based_prediction (g : ℕ → ℕ) (rows : List Row) :
    List ℤ × List ℤ :=
  let st := build_stats rows
  let base_num_probs := normalize_probs st.num 50 1
  let base_star_probs := normalize_probs st.star 12 1
  let candidates := (List.range 50).map fun i : ℕ => ((i : ℤ) + 1)
  let first := pick g 0 candidates
  let beta : ℚ := 0.05
  let picked := pick_numbers g base_num_probs st.co beta 1 4 [first]
    (candidates.erase first)
  let star_domain := (List.range 12).map fun i : ℕ => ((i : ℤ) + 1)
  let stars := sample_without_replacement g 5 star_domain base_star_probs 2
  (picked.insertionSort (fun a b => a ≤ b), stars.insertionSort (fun a b => a ≤ b))

/-! ## Concrete rows used by witnesses and counterexamples -/

/-- The single record of spec §8.7: actual draw `({1,2,3,4,5}, {1,2})`,
no stored prediction. -/
def rows0 : List Row := [⟨"2024-01-01", "1;2;3;4;5/1;2", ""⟩]

/-- A record whose actual numbers hold a duplicated value. -/
def rowDup : Row := ⟨"2024-01-02", "1;1/1;2", ""⟩

/-! ## Lemmas about the weighted sampler -/

theorem sample_aux_length {α : Type} (g : ℕ → ℕ) :
    ∀ (k t : ℕ) (avail : List α) (w : List ℚ),
      (sample_aux g t k avail w).length = min k avail.length
  | 0, _, avail, w => by simp [sample_aux]
  | k + 1, t, [], w => by simp [sample_aux]
  | k + 1, t, a :: as, w => by
    rw [sample_aux, List.length_cons,
      sample_aux_length g k (t + 1) ((a :: as).eraseIdx (g t % (a :: as).length))]
    have hidx : g t % (a :: as).length < (a :: as).length :=
      Nat.mod_lt _ (Nat.succ_pos _)
    rw [List.length_eraseIdx_of_lt hidx]
    simp only [List.length_cons]
    omega

theorem sample_aux_subset {α : Type} (g : ℕ → ℕ) :
    ∀ (k t : ℕ) (avail : List α) (w : List ℚ) (x : α),
      x ∈ sample_aux g t k avail w → x ∈ avail
  | 0, _, avail, w, x => by simp [sample_aux]
  | k + 1, t, [], w, x => by simp [sample_aux]
  | k + 1, t, a :: as, w, x => by
    rw [sample_aux]
    intro hx
    rcases List.mem_cons.mp hx with h1 | h2
    · exact h1 ▸ List.get_mem _ _ _
    · exact List.eraseIdx_subset _ _
        (sample_aux_subset g k (t + 1) _ _ x h2)

theorem get_not_mem_eraseIdx {α : Type} :
    ∀ (l : List α) (i : ℕ) (h : i < l.length),
      l.Nodup → l.get ⟨i, h⟩ ∉ l.eraseIdx i
  | a :: as, 0, _, hnd => by
    simpa [List.eraseIdx] using (List.nodup_cons.mp hnd).1
  | a :: as, i + 1, h, hnd => by
    simp only [List.eraseIdx, List.get]
    intro hmem
    rcases List.mem_cons.mp hmem with h1 | h2
    · exact (List.nodup_cons.mp hnd).1 (h1 ▸ List.get_mem as i _)
    · exact get_not_mem_eraseIdx as i _ (List.nodup_cons.mp hnd).2 h2

theorem sample_aux_nodup {α : Type} (g : ℕ → ℕ) :
    ∀ (k t : ℕ) (avail : List α) (w : List ℚ),
      avail.Nodup → (sample_aux g t k avail w).Nodup
  | 0, _, avail, w, _ => by simp [sample_aux]
  | k + 1, t, [], w, _ => by simp [sample_aux]
  | k + 1, t, a :: as, w, hnd => by
    rw [sample_aux]
    refine List.nodup_cons.mpr ⟨fun hmem => ?_, ?_⟩
    · exact get_not_mem_eraseIdx (a :: as) _ _ hnd
        (sample_aux_subset g k (t + 1) _ _ _ hmem)
    · exact sample_aux_nodup g k (t + 1) _ _ (hnd.eraseIdx _)

/-- C2: for every domain of distinct items, parallel weight sequence and
`k`, `sample_without_replacement` returns pairwise-distinct items of the
domain, exactly `min k (length domain)` of them — so exactly `k` whenever
`k ≤ length domain`, and fewer than `k` only when the pool is exhausted
first.  Termination for every randomness outcome is inherent: the source
loop is `for _ in range(k)`, embedded as recursion on `k`. -/
theorem c2_sampler_spec {α : Type} (g : ℕ → ℕ) (t : ℕ) (domain : List α)
    (weights : List ℚ) (k : ℕ) (hd : domain.Nodup)
    (hw : weights.length = domain.length) :
    (sample_without_replacement g t domain weights k).Nodup
      ∧ (sample_without_replacement g t domain weights k).length = min k domain.length
      ∧ ∀ x ∈ sample_without_replacement g t domain weights k, x ∈ domain :=
  ⟨sample_aux_nodup g k t domain weights hd,
   sample_aux_length g k t domain weights,
   fun x hx => sample_aux_subset g k t domain weights x hx⟩

theorem c2_sampler_spec_witness :
    (sample_without_replacement (fun u => u) 0 [(10 : ℤ), 20, 30] [1, 1, 1] 2).Nodup
      ∧ (sample_without_replacement (fun u => u) 0 [(10 : ℤ), 20, 30] [1, 1, 1] 2).length
          = min 2 [(10 : ℤ), 20, 30].length
      ∧ ∀ x ∈ sample_without_replacement (fun u => u) 0 [(10 : ℤ), 20, 30] [1, 1, 1] 2,
          x ∈ [(10 : ℤ), 20, 30] :=
  c2_sampler_spec (fun u => u) 0 [(10 : ℤ), 20, 30] [1, 1, 1] 2 (by decide) (by decide)

/-! ## Lemmas about the probability model -/

theorem list_sum_map_div {α : Type} (l : List α) (f : α → ℚ) (T : ℚ) :
    (l.map fun a => f a / T).sum = (l.map f).sum / T := by
  induction l with
  | nil => simp
  | cons a as ih => simp only [List.map_cons, List.sum_cons, ih, add_div]

theorem list_sum_map_add_const {α : Type} (l : List α) (f : α → ℚ) (c : ℚ) :
    (l.map fun a => f a + c).sum = (l.map f).sum + l.length * c := by
  induction l with
  | nil => simp
  | cons a as ih =>
    simp only [List.map_cons, List.sum_cons, ih, List.length_cons]
    push_cast
    ring

theorem normalize_probs_total_pos (counts : ℤ → ℕ) (ds : ℕ) (alpha : ℚ)
    (hds : 1 ≤ ds) (ha : 0 < alpha) :
    0 < ((List.range ds).map fun i : ℕ => (counts ((i : ℤ) + 1) : ℚ)).sum + alpha * ds := by
  have h1 : (0 : ℚ) ≤ ((List.range ds).map fun i : ℕ => (counts ((i : ℤ) + 1) : ℚ)).sum := by
    refine List.sum_nonneg ?_
    intro x hx
    rcases List.mem_map.mp hx with ⟨i, _, rfl⟩
    positivity
  have hds' : (1 : ℚ) ≤ (ds : ℚ) := by exact_mod_cast hds
  nlinarith

theorem normalize_probs_eq (counts : ℤ → ℕ) (ds : ℕ) (alpha : ℚ)
    (hds : 1 ≤ ds) (ha : 0 < alpha) :
    normalize_probs counts ds alpha
      = (List.range ds).map fun i : ℕ => ((counts ((i : ℤ) + 1) : ℚ) + alpha) /
          (((List.range ds).map fun i : ℕ => (counts ((i : ℤ) + 1) : ℚ)).sum + alpha * ds) := by
  simp only [normalize_probs]
  rw [if_neg (not_le.mpr (normalize_probs_total_pos counts ds alpha hds ha))]

theorem normalize_probs_mem_pos (counts : ℤ → ℕ) (ds : ℕ) (alpha : ℚ)
    (hds : 1 ≤ ds) (ha : 0 < alpha) :
    ∀ q ∈ normalize_probs counts ds alpha, 0 < q := by
  intro q hq
  rw [normalize_probs_eq counts ds alpha hds ha] at hq
  rcases List.mem_map.mp hq with ⟨i, _, rfl⟩
  exact div_pos (by positivity) (normalize_probs_total_pos counts ds alpha hds ha)

/-- C4: with `domain_size ≥ 1` and `alpha > 0`, `normalize_probs` returns
exactly `domain_size` strictly positive values summing (exactly, in `ℚ`)
to 1, and an all-zero counts table yields exactly the uniform
distribution `1 / domain_size`. -/
theorem c4_normalize_spec (counts : ℤ → ℕ) (domain_size : ℕ) (alpha : ℚ)
    (hds : 1 ≤ domain_size) (ha : 0 < alpha) :
    (normalize_probs counts domain_size alpha).length = domain_size
      ∧ (∀ q ∈ normalize_probs counts domain_size alpha, 0 < q)
      ∧ (normalize_probs counts domain_size alpha).sum = 1
      ∧ ((∀ i : ℤ, 1 ≤ i → i ≤ domain_size → counts i = 0) →
          normalize_probs counts domain_size alpha
            = List.replicate domain_size (1 / (domain_size : ℚ))) := by
  have hT := normalize_probs_total_pos counts domain_size alpha hds ha
  have heq := normalize_probs_eq counts domain_size alpha hds ha
  refine ⟨by rw [heq]; simp, normalize_probs_mem_pos counts domain_size alpha hds ha, ?_, ?_⟩
  · rw [heq, list_sum_map_div (List.range domain_size)
      (fun i : ℕ => (counts ((i : ℤ) + 1) : ℚ) + alpha),
      list_sum_map_add_const, List.length_range]
    rw [div_eq_one_iff_eq (ne_of_gt hT)]
    ring
  · intro hz
    have hf : ∀ i ∈ List.range domain_size, ((counts ((i : ℤ) + 1) : ℚ)) = 0 := by
      intro i hi
      have hi' : i < domain_size := List.mem_range.mp hi
      have : counts ((i : ℤ) + 1) = 0 := by
        exact hz ((i : ℤ) + 1) (by omega) (by omega)
      simp [this]
    have hsum0 : ((List.range domain_size).map
        fun i : ℕ => (counts ((i : ℤ) + 1) : ℚ)).sum = 0 := by
      rw [List.map_congr_left hf]
      simp
    rw [heq, hsum0, zero_add]
    have hone : ∀ i ∈ List.range domain_size,
        ((counts ((i : ℤ) + 1) : ℚ) + alpha) / (alpha * domain_size)
          = 1 / (domain_size : ℚ) := by
      intro i hi
      rw [hf i hi, zero_add]
      have hds0 : ((domain_size : ℚ)) ≠ 0 := by
        have : (1 : ℚ) ≤ (domain_size : ℚ) := by exact_mod_cast hds
        linarith
      field_simp
    rw [List.map_congr_left hone]
    simp [List.map_const', List.length_range]

theorem c4_normalize_spec_witness :
    (normalize_probs (fun _ => 0) 4 1).length = 4
      ∧ (∀ q ∈ normalize_probs (fun _ => 0) 4 1, 0 < q)
      ∧ (normalize_probs (fun _ => 0) 4 1).sum = 1
      ∧ ((∀ i : ℤ, 1 ≤ i → i ≤ (4 : ℕ) → (fun _ => 0) i = 0) →
          normalize_probs (fun _ => 0) 4 1 = List.replicate 4 (1 / ((4 : ℕ) : ℚ))) :=
  c4_normalize_spec (fun _ => 0) 4 1 (by norm_num) (by norm_num)

/-! ## Lemmas about `parse_key` -/

theorem splitFirstSlash_eq_none :
    ∀ cs : List Char, splitFirstSlash cs = none ↔ '/' ∉ cs
  | [] => by simp [splitFirstSlash]
  | c :: cs => by
    rw [splitFirstSlash]
    by_cases hc : c = '/'
    · subst hc
      simp
    · cases hsp : splitFirstSlash cs with
      | none =>
        have hni := (splitFirstSlash_eq_none cs).mp hsp
        simp [hc, hsp, hni, eq_comm]
      | some lr =>
        have hin : '/' ∈ cs := by
          by_contra hn
          rw [(splitFirstSlash_eq_none cs).mpr hn] at hsp
          cases hsp
        simp [hc, hsp, hin]

theorem trimChars_subset (cs : List Char) : ∀ x ∈ trimChars cs, x ∈ cs := by
  intro x hx
  unfold trimChars at hx
  rw [List.mem_reverse] at hx
  have h1 := (List.dropWhile_sublist (l := (cs.dropWhile Char.isWhitespace).reverse)
    Char.isWhitespace).subset hx
  rw [List.mem_reverse] at h1
  exact (List.dropWhile_sublist Char.isWhitespace).subset h1

theorem mapM_pyInt_eq_none {ts : List (List Char)} {t : List Char}
    (ht : t ∈ ts) (hn : pyInt t = none) : ts.mapM pyInt = none := by
  induction ts with
  | nil => cases ht
  | cons a as ih =>
    rcases List.mem_cons.mp ht with rfl | hmem
    · rw [List.mapM_cons, hn]
      rfl
    · rw [List.mapM_cons, ih hmem]
      cases pyInt a <;> rfl

/-- C10: `parse_key` is total (the embedding returns a pair of integer
lists for every string) and returns `([], [])` whenever the string is
empty, holds no `'/'`, or any nonempty token of either group fails
integer parsing — in which case every token of both groups is discarded,
the well-formed ones included. -/
theorem c10_parse_key_failure_modes (s : String)
    (h : s = "" ∨ '/' ∉ s.data ∨
      ∃ lr : List Char × List Char,
        splitFirstSlash (trimChars s.data) = some lr ∧
          ∃ t : List Char,
            (t ∈ group_tokens lr.1 ∨ t ∈ group_tokens lr.2) ∧ pyInt t = none) :
    parse_key s = ([], []) := by
  rcases h with rfl | hslash | ⟨lr, hsplit, t, hside, hnone⟩
  · decide
  · by_cases hs : s.data = []
    · simp [parse_key, parse_key_chars, hs]
    · have hnot : '/' ∉ trimChars s.data := fun hmem =>
        hslash (trimChars_subset s.data '/' hmem)
      rw [parse_key, parse_key_chars, if_neg hs,
        (splitFirstSlash_eq_none (trimChars s.data)).mpr hnot]
  · have hs : s.data ≠ [] := by
      intro hs
      rw [hs] at hsplit
      cases hsplit
    rw [parse_key, parse_key_chars, if_neg hs, hsplit]
    rcases hside with hmem | hmem
    · have h1 : group_ints lr.1 = none := mapM_pyInt_eq_none hmem hnone
      cases h2 : group_ints lr.2 <;> simp [h1, h2]
    · have h2 : group_ints lr.2 = none := mapM_pyInt_eq_none hmem hnone
      cases h1 : group_ints lr.1 <;> simp [h1, h2]

theorem c10_parse_key_failure_modes_witness :
    parse_key "1;x/2" = ([], []) :=
  c10_parse_key_failure_modes "1;x/2"
    (Or.inr (Or.inr ⟨(['1', ';', 'x'], ['2']), by decide,
      ['x'], Or.inl (by decide), by decide⟩))

/-! ## Per-record characterization of `build_stats` -/

theorem bump_apply (f : ℤ → ℕ) (n : ℤ) (w : ℕ) (m : ℤ) :
    bump f n w m = f m + if m = n then w else 0 := by
  unfold bump
  split <;> simp

theorem add_freqs_apply (w : ℕ) (lo hi : ℤ) :
    ∀ (xs : List ℤ) (f : ℤ → ℕ) (n : ℤ),
      add_freqs w lo hi xs f n = f n + w * ((xs.filter (in_range lo hi)).count n)
  | [], f, n => by simp [add_freqs]
  | x :: xs, f, n => by
    have hrw : add_freqs w lo hi (x :: xs) f
        = add_freqs w lo hi xs (if lo ≤ x ∧ x ≤ hi then bump f x w else f) := rfl
    rw [hrw, add_freqs_apply w lo hi xs]
    by_cases hx : lo ≤ x ∧ x ≤ hi
    · rw [if_pos hx]
      by_cases hnx : n = x
      · subst hnx
        rw [bump_apply, if_pos rfl]
        simp only [List.filter_cons, in_range, hx, and_self]
        rw [if_pos (by simp), List.count_cons_self]
        ring
      · rw [bump_apply, if_neg hnx]
        simp [List.filter_cons, in_range, hx, List.count_cons, hnx]
    · rw [if_neg hx]
      simp [List.filter_cons, in_range, hx]

theorem add_pair_apply (g : ℤ × ℤ → ℕ) (x y : ℤ) (p : ℤ × ℤ) :
    add_pair g x y p
      = g p + if x ≠ y ∧ (p = (x, y) ∨ p = (y, x)) then 1 else 0 := by
  unfold add_pair bump_co
  by_cases hxy : x = y
  · simp [hxy]
  · by_cases h1 : p = (x, y)
    · have h2 : p ≠ (y, x) := by
        rw [h1]
        simp only [ne_eq, Prod.mk.injEq, not_and]
        intro h _
        exact hxy h
      simp [hxy, h1, h2]
    · by_cases h2 : p = (y, x)
      · simp [hxy, h1, h2]
      · simp [hxy, h1, h2]

/-- The increments the pair loop makes at entry `p` for the visited pair
`q`. -/
def pair_hits (p q : ℤ × ℤ) : Bool :=
  decide (q.1 ≠ q.2 ∧ (p = q ∨ p = (q.2, q.1)))

theorem foldl_add_pair_apply :
    ∀ (L : List (ℤ × ℤ)) (g : ℤ × ℤ → ℕ) (p : ℤ × ℤ),
      (L.foldl (fun h q => add_pair h q.1 q.2) g) p = g p + L.countP (pair_hits p)
  | [], g, p => by simp
  | q :: L, g, p => by
    rw [List.foldl_cons, foldl_add_pair_apply L, add_pair_apply, List.countP_cons]
    have hif : (if pair_hits p q then 1 else 0)
        = (if q.1 ≠ q.2 ∧ (p = (q.1, q.2) ∨ p = (q.2, q.1)) then 1 else 0) := by
      simp [pair_hits]
    rw [hif]
    omega

theorem add_cooc_apply (xs : List ℤ) (g : ℤ × ℤ → ℕ) (p : ℤ × ℤ) :
    add_cooc xs g p = g p + (idx_pairs xs).countP (pair_hits p) :=
  foldl_add_pair_apply (idx_pairs xs) g p

/-- Contribution of one record to `num_freq[n]`, stated directly: twice
the count of `n` among the in-range parsed `Actual` numbers plus once its
count among the in-range parsed `Prediction` numbers. -/
def row_num_contrib (r : Row) (n : ℤ) : ℕ :=
  2 * (((parse_key r.Actual).1.filter (in_range 1 50)).count n)
    + ((parse_key r.Prediction).1.filter (in_range 1 50)).count n

/-- Contribution of one record to `star_freq[s]`, stated directly. -/
def row_star_contrib (r : Row) (s : ℤ) : ℕ :=
  2 * (((parse_key r.Actual).2.filter (in_range 1 12)).count s)
    + ((parse_key r.Prediction).2.filter (in_range 1 12)).count s

/-- Contribution of one record to `co[p]`, stated directly: the number of
index pairs of its in-range parsed `Actual` numbers that hit entry `p`.
The `Prediction` field plays no part. -/
def row_co_contrib (r : Row) (p : ℤ × ℤ) : ℕ :=
  (idx_pairs ((parse_key r.Actual).1.filter (in_range 1 50))).countP (pair_hits p)

theorem stats_step_num (st : Stats) (r : Row) (n : ℤ) :
    (stats_step st r).num n = st.num n + row_num_contrib r n := by
  show add_freqs 1 1 50 (parse_key r.Prediction).1
      (add_freqs 2 1 50 (parse_key r.Actual).1 st.num) n = _
  rw [add_freqs_apply, add_freqs_apply, row_num_contrib]
  omega

theorem stats_step_star (st : Stats) (r : Row) (s : ℤ) :
    (stats_step st r).star s = st.star s + row_star_contrib r s := by
  show add_freqs 1 1 12 (parse_key r.Prediction).2
      (add_freqs 2 1 12 (parse_key r.Actual).2 st.star) s = _
  rw [add_freqs_apply, add_freqs_apply, row_star_contrib]
  omega

theorem stats_step_co (st : Stats) (r : Row) (p : ℤ × ℤ) :
    (stats_step st r).co p = st.co p + row_co_contrib r p := by
  show add_cooc ((parse_key r.Actual).1.filter (in_range 1 50)) st.co p = _
  rw [add_cooc_apply, row_co_contrib]

theorem foldl_stats_num :
    ∀ (rows : List Row) (st : Stats) (n : ℤ),
      (rows.foldl stats_step st).num n
        = st.num n + (rows.map fun r => row_num_contrib r n).sum
  | [], st, n => by simp
  | r :: rows, st, n => by
    rw [List.foldl_cons, foldl_stats_num rows, stats_step_num]
    simp only [List.map_cons, List.sum_cons]
    omega

theorem foldl_stats_star :
    ∀ (rows : List Row) (st : Stats) (s : ℤ),
      (rows.foldl stats_step st).star s
        = st.star s + (rows.map fun r => row_star_contrib r s).sum
  | [], st, s => by simp
  | r :: rows, st, s => by
    rw [List.foldl_cons, foldl_stats_star rows, stats_step_star]
    simp only [List.map_cons, List.sum_cons]
    omega

theorem foldl_stats_co :
    ∀ (rows : List Row) (st : Stats) (p : ℤ × ℤ),
      (rows.foldl stats_step st).co p
        = st.co p + (rows.map fun r => row_co_contrib r p).sum
  | [], st, p => by simp
  | r :: rows, st, p => by
    rw [List.foldl_cons, foldl_stats_co rows, stats_step_co]
    simp only [List.map_cons, List.sum_cons]
    omega

theorem build_stats_num (rows : List Row) (n : ℤ) :
    (build_stats rows).num n = (rows.map fun r => row_num_contrib r n).sum := by
  rw [build_stats, foldl_stats_num]
  simp [init_stats]

theorem build_stats_star (rows : List Row) (s : ℤ) :
    (build_stats rows).star s = (rows.map fun r => row_star_contrib r s).sum := by
  rw [build_stats, foldl_stats_star]
  simp [init_stats]

theorem build_stats_co (rows : List Row) (p : ℤ × ℤ) :
    (build_stats rows).co p = (rows.map fun r => row_co_contrib r p).sum := by
  rw [build_stats, foldl_stats_co]
  simp [init_stats]

/-! ## C3: skip-and-continue during aggregation -/

/-- C3 counterexample: the record `"1;1/1;2"` holds the duplicated value
`1` (also a wrong cardinality), yet `build_stats` counts both occurrences
— `num_freq[1]` becomes `2 * 2 = 4`, not the `2` a single counted
occurrence (the claimed skipping of the duplicate) would give. -/
theorem c3_counterexample_duplicate_counted :
    (build_stats [rowDup]).num 1 = 4 ∧ (build_stats [rowDup]).num 1 ≠ 2 := by
  decide

/-- C3 (amended): aggregation is per-record additive — every record
contributes independently and one bad record never aborts the rest — and
each record's contribution counts exactly its in-range parsed values
(out-of-domain values are skipped one by one; a field whose encoding
fails to parse contributes nothing because `parse_key` yields
`([], [])`).  Duplicate values and wrong cardinality are not detected:
every in-range occurrence is counted via `List.count`. -/
theorem c3_aggregation_skip_and_continue (rows : List Row) (n s : ℤ)
    (p : ℤ × ℤ) :
    (build_stats rows).num n = (rows.map fun r => row_num_contrib r n).sum
      ∧ (build_stats rows).star s = (rows.map fun r => row_star_contrib r s).sum
      ∧ (build_stats rows).co p = (rows.map fun r => row_co_contrib r p).sum :=
  ⟨build_stats_num rows n, build_stats_star rows s, build_stats_co rows p⟩

/-! ## C6: the concrete single-record scenario -/

/-- C6: for the single record with actual pair `({1,2,3,4,5}, {1,2})` and
no prediction: numbers `1..5` have frequency 2 and every other integer 0;
stars 1 and 2 have frequency 2 and every other integer 0; every ordered
pair of distinct numbers from `{1,...,5}` has co-occurrence 1, and every
pair involving a number outside `{1,...,5}` has co-occurrence 0. -/
theorem c6_concrete_scenario :
    (∀ n ∈ ([1, 2, 3, 4, 5] : List ℤ), (build_stats rows0).num n = 2)
      ∧ (∀ n : ℤ, n ∉ ([1, 2, 3, 4, 5] : List ℤ) → (build_stats rows0).num n = 0)
      ∧ (build_stats rows0).star 1 = 2
      ∧ (build_stats rows0).star 2 = 2
      ∧ (∀ s : ℤ, s ∉ ([1, 2] : List ℤ) → (build_stats rows0).star s = 0)
      ∧ (∀ x ∈ ([1, 2, 3, 4, 5] : List ℤ), ∀ y ∈ ([1, 2, 3, 4, 5] : List ℤ),
          x ≠ y → (build_stats rows0).co (x, y) = 1)
      ∧ (∀ x y : ℤ, (x ∉ ([1, 2, 3, 4, 5] : List ℤ) ∨ y ∉ ([1, 2, 3, 4, 5] : List ℤ)) →
          (build_stats rows0).co (x, y) = 0) := by
  have hparse : parse_key "1;2;3;4;5/1;2" = ([1, 2, 3, 4, 5], [1, 2]) := by decide
  refine ⟨by decide, ?_, by decide, by decide, ?_, by decide, ?_⟩
  · intro n hn
    rw [build_stats_num]
    simp only [rows0, List.map_cons, List.map_nil, List.sum_cons, List.sum_nil,
      row_num_contrib, hparse]
    have h5 : List.count n (List.filter (in_range 1 50) [1, 2, 3, 4, 5]) = 0 := by
      rw [show List.filter (in_range 1 50) ([1, 2, 3, 4, 5] : List ℤ)
          = [1, 2, 3, 4, 5] from by decide]
      exact List.count_eq_zero.mpr hn
    have hparse2 : parse_key "" = ([], []) := by decide
    rw [hparse2]
    simp [h5]
  · intro s hs
    rw [build_stats_star]
    simp only [rows0, List.map_cons, List.map_nil, List.sum_cons, List.sum_nil,
      row_star_contrib, hparse]
    have h2 : List.count s (List.filter (in_range 1 12) [1, 2]) = 0 := by
      rw [show List.filter (in_range 1 12) ([1, 2] : List ℤ) = [1, 2] from by decide]
      exact List.count_eq_zero.mpr hs
    have hparse2 : parse_key "" = ([], []) := by decide
    rw [hparse2]
    simp [h2]
  · intro x y hxy
    rw [build_stats_co]
    simp only [rows0, List.map_cons, List.map_nil, List.sum_cons, List.sum_nil,
      row_co_contrib, hparse]
    rw [show List.filter (in_range 1 50) ([1, 2, 3, 4, 5] : List ℤ)
        = [1, 2, 3, 4, 5] from by decide]
    rw [show idx_pairs ([1, 2, 3, 4, 5] : List ℤ)
        = [(1, 2), (1, 3), (1, 4), (1, 5), (2, 3), (2, 4), (2, 5), (3, 4), (3, 5), (4, 5)]
      from by decide]
    have hx5 : (¬(x = 1 ∨ x = 2 ∨ x = 3 ∨ x = 4 ∨ x = 5))
        ∨ (¬(y = 1 ∨ y = 2 ∨ y = 3 ∨ y = 4 ∨ y = 5)) := by
      rcases hxy with h | h
      · exact Or.inl (by simpa using h)
      · exact Or.inr (by simpa using h)
    rw [add_zero]
    apply List.countP_eq_zero.mpr
    intro q hq
    simp only [List.mem_cons, List.not_mem_nil, or_false] at hq
    rcases hq with rfl | rfl | rfl | rfl | rfl | rfl | rfl | rfl | rfl | rfl <;>
      (simp only [pair_hits, decide_eq_true_eq, Prod.mk.injEq, ne_eq]; omega)

/-! ## C7: invariants of the co-occurrence matrix -/

/-- A variant of `rows0` with the same `Actual` field but a different
(nonempty) `Prediction` field. -/
def rows1 : List Row := [⟨"2024-01-01", "1;2;3;4;5/1;2", "7;8/3"⟩]

/-- C7: for every record collection the co-occurrence matrix is
symmetric, zero on the diagonal, non-negative, and determined by the
`Actual` fields alone — `Prediction` pairs never change any entry. -/
theorem c7_cooccurrence_invariants (rows : List Row) :
    (∀ x y : ℤ, (build_stats rows).co (x, y) = (build_stats rows).co (y, x))
      ∧ (∀ x : ℤ, (build_stats rows).co (x, x) = 0)
      ∧ (∀ p : ℤ × ℤ, 0 ≤ (build_stats rows).co p)
      ∧ (∀ rows' : List Row,
          List.Forall₂ (fun r r' => r.Actual = r'.Actual) rows rows' →
          ∀ p : ℤ × ℤ, (build_stats rows).co p = (build_stats rows').co p) := by
  refine ⟨?_, ?_, fun p => Nat.zero_le _, ?_⟩
  · intro x y
    rw [build_stats_co, build_stats_co]
    refine congrArg List.sum (List.map_congr_left fun r _ => ?_)
    refine List.countP_congr fun q _ => ?_
    simp only [pair_hits, decide_eq_true_eq, Prod.ext_iff, ne_eq]
    omega
  · intro x
    rw [build_stats_co]
    have hrow : ∀ r ∈ rows, row_co_contrib r (x, x) = 0 := by
      intro r _
      refine List.countP_eq_zero.mpr fun q _ => ?_
      simp only [pair_hits, decide_eq_true_eq, Prod.ext_iff, ne_eq]
      omega
    rw [List.map_congr_left hrow]
    simp
  · intro rows' hf p
    rw [build_stats_co, build_stats_co]
    refine congrArg List.sum ?_
    induction hf with
    | nil => rfl
    | cons h1 h2 ih =>
      simp only [List.map_cons]
      rw [ih]
      congr 1
      simp [row_co_contrib, h1]

theorem c7_cooccurrence_invariants_witness :
    ((build_stats rows0).co (1, 2) = (build_stats rows0).co (2, 1))
      ∧ ((build_stats rows0).co (3, 3) = 0)
      ∧ (0 ≤ (build_stats rows0).co (3, 4))
      ∧ ((build_stats rows0).co (1, 2) = (build_stats rows1).co (1, 2)) :=
  ⟨(c7_cooccurrence_invariants rows0).1 1 2,
   (c7_cooccurrence_invariants rows0).2.1 3,
   (c7_cooccurrence_invariants rows0).2.2.1 (3, 4),
   (c7_cooccurrence_invariants rows0).2.2.2 rows1
     (List.Forall₂.cons rfl List.Forall₂.nil) (1, 2)⟩

/-! ## Lemmas about the number-selection loop -/

theorem pick_mem (g : ℕ → ℕ) (t : ℕ) (l : List ℤ) (hl : l ≠ []) :
    pick g t l ∈ l := by
  have hlen : 0 < l.length := List.length_pos.mpr hl
  have hn : g t % l.length < l.length := Nat.mod_lt _ hlen
  rw [pick, List.getD_eq_getElem?_getD, List.getElem?_eq_getElem hn]
  exact List.getElem_mem hn

theorem pick_numbers_length (g : ℕ → ℕ) (base : List ℚ) (co : ℤ × ℤ → ℕ)
    (beta : ℚ) :
    ∀ (fuel t : ℕ) (picked candidates : List ℤ),
      (pick_numbers g base co beta t fuel picked candidates).length
        = picked.length + min fuel candidates.length
  | 0, t, picked, candidates => by simp [pick_numbers]
  | fuel + 1, t, picked, candidates => by
    by_cases hc : candidates = []
    · simp [pick_numbers, hc]
    · simp only [pick_numbers, if_neg hc]
      rw [pick_numbers_length g base co beta fuel (t + 1), List.length_append,
        List.length_erase_of_mem (pick_mem g t candidates hc)]
      have hpos : 0 < candidates.length := List.length_pos.mpr hc
      simp only [List.length_cons, List.length_nil]
      omega

theorem pick_numbers_subset (g : ℕ → ℕ) (base : List ℚ) (co : ℤ × ℤ → ℕ)
    (beta : ℚ) :
    ∀ (fuel t : ℕ) (picked candidates : List ℤ) (x : ℤ),
      x ∈ pick_numbers g base co beta t fuel picked candidates →
        x ∈ picked ∨ x ∈ candidates
  | 0, t, picked, candidates, x => by
    simp only [pick_numbers]
    exact Or.inl
  | fuel + 1, t, picked, candidates, x => by
    by_cases hc : candidates = []
    · simp only [pick_numbers, if_pos hc]
      exact Or.inl
    · simp only [pick_numbers, if_neg hc]
      intro hx
      rcases pick_numbers_subset g base co beta fuel (t + 1) _ _ x hx with h1 | h2
      · rcases List.mem_append.mp h1 with hp | hs
        · exact Or.inl hp
        · rcases List.mem_singleton.mp hs with rfl
          exact Or.inr (pick_mem g t candidates hc)
      · exact Or.inr (List.erase_subset _ _ h2)

theorem pick_numbers_nodup (g : ℕ → ℕ) (base : List ℚ) (co : ℤ × ℤ → ℕ)
    (beta : ℚ) :
    ∀ (fuel t : ℕ) (picked candidates : List ℤ),
      picked.Nodup → candidates.Nodup → (∀ x ∈ picked, x ∉ candidates) →
      (pick_numbers g base co beta t fuel picked candidates).Nodup
  | 0, t, picked, candidates, hp, _, _ => by simpa [pick_numbers] using hp
  | fuel + 1, t, picked, candidates, hp, hc, hdisj => by
    by_cases hnil : candidates = []
    · simpa [pick_numbers, hnil] using hp
    · simp only [pick_numbers, if_neg hnil]
      have hmem : pick g t candidates ∈ candidates := pick_mem g t candidates hnil
      refine pick_numbers_nodup g base co beta fuel (t + 1) _ _ ?_ (hc.erase _) ?_
      · refine List.Nodup.append hp (List.nodup_singleton _) ?_
        intro a ha hb
        rcases List.mem_singleton.mp hb with rfl
        exact hdisj _ ha hmem
      · intro x hx hx'
        rcases List.mem_append.mp hx with hxp | hxs
        · exact hdisj x hxp (List.erase_subset _ _ hx')
        · rcases List.mem_singleton.mp hxs with rfl
          exact ((hc.mem_erase_iff).mp hx').1 rfl

theorem range_map_nodup (n : ℕ) :
    ((List.range n).map fun i : ℕ => ((i : ℤ) + 1)).Nodup := by
  refine List.Nodup.map ?_ (List.nodup_range n)
  intro a b h
  replace h : (a : ℤ) + 1 = (b : ℤ) + 1 := h
  omega

theorem range_map_mem (n : ℕ) (x : ℤ) :
    x ∈ ((List.range n).map fun i : ℕ => ((i : ℤ) + 1)) ↔ 1 ≤ x ∧ x ≤ n := by
  simp only [List.mem_map, List.mem_range]
  constructor
  · rintro ⟨i, hi, rfl⟩
    omega
  · intro hx
    exact ⟨(x - 1).toNat, by omega, by omega⟩

/-- C1: for every record collection and every outcome of the randomness
source, the prediction is a strictly ascending list of 5 pairwise
distinct numbers in `[1, 50]` together with a strictly ascending list of
2 pairwise distinct stars in `[1, 12]`. -/
theorem c1_prediction_well_formed (g : ℕ → ℕ) (rows : List Row) :
    ((probability_based_prediction g rows).1.length = 5)
      ∧ ((probability_based_prediction g rows).1.Nodup)
      ∧ ((probability_based_prediction g rows).1.Sorted (· < ·))
      ∧ (∀ n ∈ (probability_based_prediction g rows).1, 1 ≤ n ∧ n ≤ 50)
      ∧ ((probability_based_prediction g rows).2.length = 2)
      ∧ ((probability_based_prediction g rows).2.Nodup)
      ∧ ((probability_based_prediction g rows).2.Sorted (· < ·))
      ∧ (∀ s ∈ (probability_based_prediction g rows).2, 1 ≤ s ∧ s ≤ 12) := by
  have hcne : ((List.range 50).map fun i : ℕ => ((i : ℤ) + 1)) ≠ [] := by
    intro h
    have := congrArg List.length h
    simp at this
  have hsne : ((List.range 12).map fun i : ℕ => ((i : ℤ) + 1)) ≠ [] := by
    intro h
    have := congrArg List.length h
    simp at this
  have hfirst : pick g 0 ((List.range 50).map fun i : ℕ => ((i : ℤ) + 1))
      ∈ (List.range 50).map fun i : ℕ => ((i : ℤ) + 1) := pick_mem g 0 _ hcne
  -- facts about the unsorted picked-numbers list
  have hlen : (pick_numbers g (normalize_probs (build_stats rows).num 50 1)
      (build_stats rows).co 0.05 1 4
      [pick g 0 ((List.range 50).map fun i : ℕ => ((i : ℤ) + 1))]
      (((List.range 50).map fun i : ℕ => ((i : ℤ) + 1)).erase
        (pick g 0 ((List.range 50).map fun i : ℕ => ((i : ℤ) + 1))))).length = 5 := by
    rw [pick_numbers_length, List.length_erase_of_mem hfirst]
    simp
  have hsub : ∀ x ∈ pick_numbers g (normalize_probs (build_stats rows).num 50 1)
      (build_stats rows).co 0.05 1 4
      [pick g 0 ((List.range 50).map fun i : ℕ => ((i : ℤ) + 1))]
      (((List.range 50).map fun i : ℕ => ((i : ℤ) + 1)).erase
        (pick g 0 ((List.range 50).map fun i : ℕ => ((i : ℤ) + 1)))),
      x ∈ (List.range 50).map fun i : ℕ => ((i : ℤ) + 1) := by
    intro x hx
    rcases pick_numbers_subset g _ _ _ 4 1 _ _ x hx with h1 | h2
    · rcases List.mem_singleton.mp h1 with rfl
      exact hfirst
    · exact List.erase_subset _ _ h2
  have hnd : (pick_numbers g (normalize_probs (build_stats rows).num 50 1)
      (build_stats rows).co 0.05 1 4
      [pick g 0 ((List.range 50).map fun i : ℕ => ((i : ℤ) + 1))]
      (((List.range 50).map fun i : ℕ => ((i : ℤ) + 1)).erase
        (pick g 0 ((List.range 50).map fun i : ℕ => ((i : ℤ) + 1))))).Nodup := by
    refine pick_numbers_nodup g _ _ _ 4 1 _ _ (List.nodup_singleton _)
      ((range_map_nodup 50).erase
        (pick g 0 ((List.range 50).map fun i : ℕ => ((i : ℤ) + 1)))) ?_
    intro x hx
    rcases List.mem_singleton.mp hx with rfl
    exact fun hmem => (((range_map_nodup 50).mem_erase_iff).mp hmem).1 rfl
  -- facts about the unsorted star list
  have hslen : (sample_without_replacement g 5
      ((List.range 12).map fun i : ℕ => ((i : ℤ) + 1))
      (normalize_probs (build_stats rows).star 12 1) 2).length = 2 := by
    rw [sample_without_replacement, sample_aux_length]
    simp
  have hssub : ∀ x ∈ sample_without_replacement g 5
      ((List.range 12).map fun i : ℕ => ((i : ℤ) + 1))
      (normalize_probs (build_stats rows).star 12 1) 2,
      x ∈ (List.range 12).map fun i : ℕ => ((i : ℤ) + 1) :=
    fun x hx => sample_aux_subset g 2 5 _ _ x hx
  have hsnd : (sample_without_replacement g 5
      ((List.range 12).map fun i : ℕ => ((i : ℤ) + 1))
      (normalize_probs (build_stats rows).star 12 1) 2).Nodup :=
    sample_aux_nodup g 2 5 _ _ (range_map_nodup 12)
  simp only [probability_based_prediction]
  have hperm := List.perm_insertionSort (fun a b : ℤ => a ≤ b)
    (pick_numbers g (normalize_probs (build_stats rows).num 50 1)
      (build_stats rows).co 0.05 1 4
      [pick g 0 ((List.range 50).map fun i : ℕ => ((i : ℤ) + 1))]
      (((List.range 50).map fun i : ℕ => ((i : ℤ) + 1)).erase
        (pick g 0 ((List.range 50).map fun i : ℕ => ((i : ℤ) + 1)))))
  have hsperm := List.perm_insertionSort (fun a b : ℤ => a ≤ b)
    (sample_without_replacement g 5
      ((List.range 12).map fun i : ℕ => ((i : ℤ) + 1))
      (normalize_probs (build_stats rows).star 12 1) 2)
  have hnd' := (hperm.nodup_iff).mpr hnd
  have hsnd' := (hsperm.nodup_iff).mpr hsnd
  refine ⟨?_, hnd', ?_, ?_, ?_, hsnd', ?_, ?_⟩
  · rw [hperm.length_eq, hlen]
  · exact List.Sorted.lt_of_le (List.sorted_insertionSort _ _) hnd'
  · intro n hn
    exact (range_map_mem 50 n).mp (hsub n (hperm.mem_iff.mp hn))
  · rw [hsperm.length_eq, hslen]
  · exact List.Sorted.lt_of_le (List.sorted_insertionSort _ _) hsnd'
  · intro s hs
    exact (range_map_mem 12 s).mp (hssub s (hsperm.mem_iff.mp hs))

/-! ## C5: effective weights of the co-occurrence-biased picks -/

theorem effective_weights_getD (base : List ℚ) (co : ℤ × ℤ → ℕ) (beta : ℚ)
    (picked candidates : List ℤ) (i : ℕ) (hi : i < candidates.length) :
    (effective_weights base co beta picked candidates).getD i 0
      = max (base.getD ((candidates.get ⟨i, hi⟩ - 1).toNat) 0
          + (picked.map fun p => (co (candidates.get ⟨i, hi⟩, p) : ℚ)).sum * beta) 0 := by
  rw [effective_weights, List.getD_eq_getElem?_getD, List.getElem?_map,
    List.getElem?_eq_getElem hi]
  simp

theorem normalize_probs_getD_nonneg (counts : ℤ → ℕ) (ds : ℕ) (j : ℕ)
    (hds : 1 ≤ ds) :
    0 ≤ (normalize_probs counts ds 1).getD j 0 := by
  by_cases hj : j < (normalize_probs counts ds 1).length
  · rw [List.getD_eq_getElem?_getD, List.getElem?_eq_getElem hj]
    exact le_of_lt (normalize_probs_mem_pos counts ds 1 hds one_pos _
      (List.getElem_mem hj))
  · rw [List.getD_eq_getElem?_getD, List.getElem?_eq_none (by omega)]
    rfl

/-- C5: at every subsequent pick, the effective weight the loop computes
for the `i`-th remaining candidate `c` is exactly
`max(base_weight(c) + beta * Σ_{p picked} co(c, p), 0)`; and whenever
`beta > 0` and `c` has positive co-occurrence with some already-picked
number, its effective weight strictly exceeds its base weight. -/
theorem c5_effective_weight (rows : List Row) (beta : ℚ)
    (picked candidates : List ℤ) (i : ℕ) (hi : i < candidates.length) :
    ((effective_weights (normalize_probs (build_stats rows).num 50 1)
        (build_stats rows).co beta picked candidates).getD i 0
      = max ((normalize_probs (build_stats rows).num 50 1).getD
            ((candidates.get ⟨i, hi⟩ - 1).toNat) 0
          + beta * (picked.map fun p =>
              ((build_stats rows).co (candidates.get ⟨i, hi⟩, p) : ℚ)).sum) 0)
    ∧ (0 < beta →
        (∃ p ∈ picked, 0 < (build_stats rows).co (candidates.get ⟨i, hi⟩, p)) →
        (normalize_probs (build_stats rows).num 50 1).getD
            ((candidates.get ⟨i, hi⟩ - 1).toNat) 0
          < (effective_weights (normalize_probs (build_stats rows).num 50 1)
              (build_stats rows).co beta picked candidates).getD i 0) := by
  have heq := effective_weights_getD (normalize_probs (build_stats rows).num 50 1)
    (build_stats rows).co beta picked candidates i hi
  constructor
  · rw [heq, mul_comm]
  · intro hb ⟨p, hp, hpos⟩
    have hsum : 0 < (picked.map fun q =>
        ((build_stats rows).co (candidates.get ⟨i, hi⟩, q) : ℚ)).sum := by
      have hmem : (((build_stats rows).co (candidates.get ⟨i, hi⟩, p) : ℚ))
          ∈ picked.map fun q =>
            ((build_stats rows).co (candidates.get ⟨i, hi⟩, q) : ℚ) :=
        List.mem_map.mpr ⟨p, hp, rfl⟩
      have hnn : ∀ x ∈ picked.map fun q =>
          ((build_stats rows).co (candidates.get ⟨i, hi⟩, q) : ℚ), 0 ≤ x := by
        intro x hx
        rcases List.mem_map.mp hx with ⟨q, _, rfl⟩
        positivity
      calc (0 : ℚ) < ((build_stats rows).co (candidates.get ⟨i, hi⟩, p) : ℚ) := by
            exact_mod_cast hpos
        _ ≤ _ := List.single_le_sum hnn _ hmem
    have hbase := normalize_probs_getD_nonneg (build_stats rows).num 50
      ((candidates.get ⟨i, hi⟩ - 1).toNat) (by norm_num)
    rw [heq]
    calc (normalize_probs (build_stats rows).num 50 1).getD
          ((candidates.get ⟨i, hi⟩ - 1).toNat) 0
        < (normalize_probs (build_stats rows).num 50 1).getD
            ((candidates.get ⟨i, hi⟩ - 1).toNat) 0
          + (picked.map fun p =>
              ((build_stats rows).co (candidates.get ⟨i, hi⟩, p) : ℚ)).sum * beta := by
          nlinarith
      _ ≤ _ := le_max_left _ _

theorem c5_effective_weight_witness :
    0 < (0.05 : ℚ)
      ∧ (∃ p ∈ ([1] : List ℤ),
          0 < (build_stats rows0).co (([2] : List ℤ).get ⟨0, by decide⟩, p))
      ∧ (normalize_probs (build_stats rows0).num 50 1).getD
            ((([2] : List ℤ).get ⟨0, by decide⟩ - 1).toNat) 0
          < (effective_weights (normalize_probs (build_stats rows0).num 50 1)
              (build_stats rows0).co 0.05 [1] [2]).getD 0 0 :=
  ⟨by norm_num, ⟨1, by decide, by decide⟩,
   (c5_effective_weight rows0 0.05 [1] [2] 0 (by decide)).2 (by norm_num)
     ⟨1, by decide, by decide⟩⟩

/-! ## C9: no state across invocations -/

theorem pick_oracle_congr (g g' : ℕ → ℕ) (t : ℕ) (l : List ℤ)
    (h : g t = g' t) : pick g t l = pick g' t l := by
  rw [pick, pick, h]

theorem pick_numbers_oracle_congr (g g' : ℕ → ℕ) (base : List ℚ)
    (co : ℤ × ℤ → ℕ) (beta : ℚ) :
    ∀ (fuel t : ℕ) (picked candidates : List ℤ),
      (∀ u : ℕ, t ≤ u → u < t + fuel → g u = g' u) →
      pick_numbers g base co beta t fuel picked candidates
        = pick_numbers g' base co beta t fuel picked candidates
  | 0, t, picked, candidates, _ => by simp [pick_numbers]
  | fuel + 1, t, picked, candidates, h => by
    by_cases hc : candidates = []
    · simp [pick_numbers, hc]
    · simp only [pick_numbers, if_neg hc]
      rw [pick_oracle_congr g g' t candidates (h t le_rfl (by omega))]
      exact pick_numbers_oracle_congr g g' base co beta fuel (t + 1) _ _
        (fun u hu1 hu2 => h u (by omega) (by omega))

theorem sample_aux_oracle_congr {α : Type} (g g' : ℕ → ℕ) :
    ∀ (k t : ℕ) (avail : List α) (w : List ℚ),
      (∀ u : ℕ, t ≤ u → u < t + k → g u = g' u) →
      sample_aux g t k avail w = sample_aux g' t k avail w
  | 0, t, avail, w, _ => by simp [sample_aux]
  | k + 1, t, [], w, _ => by simp [sample_aux]
  | k + 1, t, a :: as, w, h => by
    have h0 : g t = g' t := h t le_rfl (by omega)
    rw [sample_aux, sample_aux]
    simp only [h0]
    rw [sample_aux_oracle_congr g g' k (t + 1) _ _
      (fun u hu1 hu2 => h u (by omega) (by omega))]

/-- C9: the engine holds no state across invocations — the output of a
call is a function of the supplied records and the (at most seven)
randomness outcomes that call consumes, and of nothing else.  Two calls
whose oracles agree on steps `0..6` return identical results on the same
records; the records themselves are immutable values of the embedding,
mirroring that the source never assigns into `rows` or its dicts. -/
theorem c9_no_cross_call_state (g g' : ℕ → ℕ) (rows : List Row)
    (h : ∀ t : ℕ, t < 7 → g t = g' t) :
    probability_based_prediction g rows = probability_based_prediction g' rows := by
  have h0 : pick g 0 ((List.range 50).map fun i : ℕ => ((i : ℤ) + 1))
      = pick g' 0 ((List.range 50).map fun i : ℕ => ((i : ℤ) + 1)) :=
    pick_oracle_congr g g' 0 _ (h 0 (by norm_num))
  simp only [probability_based_prediction]
  rw [h0,
    pick_numbers_oracle_congr g g' (normalize_probs (build_stats rows).num 50 1)
      (build_stats rows).co 0.05 4 1 _ _ (fun u hu1 hu2 => h u (by omega)),
    sample_without_replacement, sample_without_replacement,
    sample_aux_oracle_congr g g' 2 5 _ _ (fun u hu1 hu2 => h u (by omega))]

theorem c9_no_cross_call_state_witness :
    probability_based_prediction (fun t => t) []
      = probability_based_prediction (fun t => if t < 7 then t else t + 42) [] :=
  c9_no_cross_call_state (fun t => t) (fun t => if t < 7 then t else t + 42) []
    (fun t ht => by simp [ht])

end LottoApp
